import Mathlib

/-!
Verification development for the chunked summarization pipeline
(`chunked_summarizer.py`).  The Python source is shallowly embedded:
pure functions become Lean functions, the tiktoken `count_tokens` is
abstracted as a parameter `ct : String → Nat`, and the OpenAI client is
abstracted as an oracle returning either a successful completion, a
transient error (`RateLimitError`, `APIError`, `APIConnectionError`) or
any other exception.
-/

namespace WeeklyDigest

open scoped List

/-- Source constant `MAX_CHUNK_TOKENS = 10000`. -/
def MAX_CHUNK_TOKENS : Nat := 10000

/-- Source constant `MAX_FINAL_WORDS = 300`. -/
def MAX_FINAL_WORDS : Nat := 300

/-- Source constant `MAX_RETRIES = 3`. -/
def MAX_RETRIES : Nat := 3

/-- Source constant `RETRY_DELAY = 2` (seconds). -/
def RETRY_DELAY : Nat := 2

/-- Source constant `GPT4O_MINI_INPUT_COST_PER_1K = 0.00015`, as a rational. -/
def GPT4O_MINI_INPUT_COST_PER_1K : ℚ := 15 / 100000

/-- Source constant `GPT4O_MINI_OUTPUT_COST_PER_1K = 0.0006`, as a rational. -/
def GPT4O_MINI_OUTPUT_COST_PER_1K : ℚ := 6 / 10000

/-- Whitespace test used by Python `str.strip` and the regex class `\s`. -/
def wsChar (c : Char) : Bool := c.isWhitespace

/-- Python `str.strip` on a character list: drop trailing whitespace, then
leading whitespace. -/
def stripList (l : List Char) : List Char := (l.rdropWhile wsChar).dropWhile wsChar

/-- Python `str.strip`. -/
def strip (s : String) : String := ⟨stripList s.data⟩

/-- Does the regex `\s+` match at the start of this character list? -/
def startsWithWs : List Char → Bool
  | [] => false
  | c :: _ => wsChar c

/-- Does `c` match the regex lookbehind class `[.!?]`? -/
def sentenceEnd (c : Char) : Bool := c == '.' || c == '!' || c == '?'

/-- Core of `re.split(r'(?<=[.!?])\s+', text)`: scan left to right, and at
every maximal whitespace run preceded by `.`, `!` or `?`, end the current
segment and drop the whitespace.  `acc` holds the current segment reversed.
The `fuel` argument makes the recursion structural (each step consumes at
least one character, so starting fuel at the character count means the
out-of-fuel branch is unreachable). -/
def splitSentencesAux : Nat → List Char → List Char → List (List Char)
  | _, acc, [] => [acc.reverse]
  | 0, acc, rest => [acc.reverse ++ rest]
  | fuel + 1, acc, c :: rest =>
    if sentenceEnd c && startsWithWs rest then
      (c :: acc).reverse :: splitSentencesAux fuel [] (rest.dropWhile wsChar)
    else
      splitSentencesAux fuel (c :: acc) rest

/-- `Tokenizer._split_into_sentences`: regex-split the text at sentence
endings, then `[s.strip() for s in sentences if s.strip()]`. -/
def split_into_sentences (text : String) : List String :=
  ((splitSentencesAux text.data.length [] text.data).map (fun l => strip ⟨l⟩)).filter
    (fun s => s ≠ "")

/-- The sentence-accumulation loop of `Tokenizer.split_into_chunks`,
including the final `if current_chunk: chunks.append(current_chunk.strip())`
flush; chunks are produced in order at the head of the returned list. -/
def chunkLoop (ct : String → Nat) (max_tokens : Nat) : List String → String → List String
  | [], current_chunk => if current_chunk = "" then [] else [strip current_chunk]
  | sentence :: rest, current_chunk =>
    let test_chunk := current_chunk ++ sentence ++ "\n\n"
    if ct test_chunk ≤ max_tokens then
      chunkLoop ct max_tokens rest test_chunk
    else if current_chunk = "" then
      chunkLoop ct max_tokens rest (sentence ++ "\n\n")
    else
      strip current_chunk :: chunkLoop ct max_tokens rest (sentence ++ "\n\n")

/-- `Tokenizer.split_into_chunks`.  `ct` abstracts
`Tokenizer.count_tokens` (tiktoken `cl100k_base`). -/
def split_into_chunks (ct : String → Nat) (text : String) (max_tokens : Nat) : List String :=
  if ct text ≤ max_tokens then [text]
  else chunkLoop ct max_tokens (split_into_sentences text) ""

/-- Token counter used to instantiate `ct` in concrete witnesses:
one token per character. -/
def ctLen : String → Nat := fun s => s.data.length

/-- Python `str.split()` (no argument): split on whitespace characters and
discard the empty pieces produced by runs of whitespace. -/
def splitWords (s : String) : List String :=
  (s.split (fun c => wsChar c)).filter (fun w => w ≠ "")

/-- Insert a thousands separator every three digits, working on the
reversed digit list (the Python format spec `:,`). -/
def commaGroupAux : List Char → List Char
  | a :: b :: c :: d :: rest => a :: b :: c :: ',' :: commaGroupAux (d :: rest)
  | l => l

/-- Python `f"{n:,}"` for a natural number. -/
def commaGroup (n : Nat) : String :=
  ⟨(commaGroupAux (toString n).data.reverse).reverse⟩

/-- `ChunkedSummarizer._format_final_summary`: prepend the executive-summary
header and append the word-count/token-count trailer. -/
def format_final_summary (ct : String → Nat) (summary : String) : String :=
  let word_count := (splitWords summary).length
  let token_count := ct summary
  let header := "# 📊 Executive Summary\n\n"
  let footer := "\n\n---\n*Generated from " ++ toString word_count ++ " words ("
    ++ commaGroup token_count ++ " tokens)*"
  header ++ summary ++ footer

/-- Outcome of one `client.chat.completions.create` call:
a completion text, a transient error (`RateLimitError`, `APIError`,
`APIConnectionError`) or any other exception. -/
inductive LLMResult where
  | success (text : String)
  | transient (msg : String)
  | fatal (msg : String)
deriving Repr, DecidableEq

/-- Result of a retry loop: the returned text (`none` models the Python
`None` that would be returned if the `for` loop ever fell through), the
list of back-off sleeps performed (seconds), and the number of LLM calls
issued. -/
structure CallOutcome where
  result : Option String
  sleeps : List Nat
  llmCalls : Nat
deriving Repr, DecidableEq

/-- The placeholder text returned by `ChunkedSummarizer.summarize_chunk`
when a chunk cannot be summarized. -/
def chunkFailurePlaceholder (chunk_index : Nat) (msg : String) : String :=
  "## Chunk " ++ toString (chunk_index + 1)
    ++ " Summary\n\n*Summary generation failed: " ++ msg ++ "*"

/-- The `for attempt in range(MAX_RETRIES)` loop of
`ChunkedSummarizer.summarize_chunk`; `call a` is the outcome of the LLM
call on attempt `a`, and the remaining attempt numbers drive the loop. -/
def summarizeLoop (call : Nat → LLMResult) (chunk_index : Nat) :
    List Nat → List Nat → Nat → CallOutcome
  | [], sleeps, calls => ⟨none, sleeps, calls⟩
  | attempt :: rest, sleeps, calls =>
    match call attempt with
    | .success s => ⟨some s, sleeps, calls + 1⟩
    | .transient msg =>
      if attempt < MAX_RETRIES - 1 then
        summarizeLoop call chunk_index rest (sleeps ++ [RETRY_DELAY * 2 ^ attempt]) (calls + 1)
      else
        ⟨some (chunkFailurePlaceholder chunk_index msg), sleeps, calls + 1⟩
    | .fatal msg => ⟨some (chunkFailurePlaceholder chunk_index msg), sleeps, calls + 1⟩

/-- `ChunkedSummarizer.summarize_chunk`: raises `ValueError` when the
OpenAI client is absent, otherwise runs the bounded retry loop. -/
def summarize_chunk (client : Bool) (call : Nat → LLMResult) (chunk_index : Nat) :
    Except String CallOutcome :=
  if client = false then
    Except.error "OpenAI client not initialized. Please set OPENAI_API_KEY."
  else
    Except.ok (summarizeLoop call chunk_index (List.range MAX_RETRIES) [] 0)

/-- Python `"\n\n".join(summaries)`. -/
def joinNN : List String → String
  | [] => ""
  | [s] => s
  | s :: s2 :: rest => s ++ "\n\n" ++ joinNN (s2 :: rest)

/-- `withNN g` is the running `current_chunk` of
`Tokenizer.split_into_chunks` after the sentences of `g` have been
accumulated: each sentence followed by `"\n\n"`. -/
def withNN : List String → String
  | [] => ""
  | s :: rest => s ++ "\n\n" ++ withNN rest

/-- A well-formed sentence as produced by
`Tokenizer._split_into_sentences`: non-empty and invariant under
`str.strip`. -/
def sentOk (s : String) : Prop := s ≠ "" ∧ strip s = s

/-- The fixed summary returned by `ChunkedSummarizer.merge_summaries` on an
empty input list. -/
def noContentSummary : String :=
  "# 📊 Executive Summary\n\nNo content was provided for analysis."

/-- The retry loop of `ChunkedSummarizer.merge_summaries` for two or more
partial summaries: on success the completion is formatted; on retry
exhaustion or any other exception the raw concatenation of the partial
summaries is formatted instead. -/
def mergeLoop (ct : String → Nat) (call : Nat → LLMResult) (summaries : List String) :
    List Nat → List Nat → Nat → CallOutcome
  | [], sleeps, calls => ⟨none, sleeps, calls⟩
  | attempt :: rest, sleeps, calls =>
    match call attempt with
    | .success s => ⟨some (format_final_summary ct s), sleeps, calls + 1⟩
    | .transient _ =>
      if attempt < MAX_RETRIES - 1 then
        mergeLoop ct call summaries rest (sleeps ++ [RETRY_DELAY * 2 ^ attempt]) (calls + 1)
      else
        ⟨some (format_final_summary ct (joinNN summaries)), sleeps, calls + 1⟩
    | .fatal _ => ⟨some (format_final_summary ct (joinNN summaries)), sleeps, calls + 1⟩

/-- `ChunkedSummarizer.merge_summaries`. -/
def merge_summaries (ct : String → Nat) (call : Nat → LLMResult) (summaries : List String) :
    CallOutcome :=
  match summaries with
  | [] => ⟨some noContentSummary, [], 0⟩
  | [s] => ⟨some (format_final_summary ct s), [], 0⟩
  | _ => mergeLoop ct call summaries (List.range MAX_RETRIES) [] 0

set_option linter.unusedVariables false in
/-- `ChunkedSummarizer._direct_summarize`: a single LLM call inside one
`try/except Exception` block — every failure, transient or not, yields the
fixed failure text; the result records the sleeps performed (none) and the
number of LLM calls (one). -/
def direct_summarize (ct : String → Nat) (call : Nat → LLMResult)
    (text : String) (max_words : Nat) : String × List Nat × Nat :=
  match call 0 with
  | .success s => (format_final_summary ct s, [], 1)
  | .transient msg => ("# ❌ Summary Generation Failed\n\nError: " ++ msg, [], 1)
  | .fatal msg => ("# ❌ Summary Generation Failed\n\nError: " ++ msg, [], 1)

/-- Which high-level operations `ChunkedSummarizer.summarize_text`
invoked, with their arguments: `summarize_chunk` invocations as
`(chunk, index, total)` in call order, `merge_summaries` invocations with
the partial-summary list passed, and `_direct_summarize` invocations as
`(text, max_words)`. -/
structure SummarizeTrace where
  chunkInvocations : List (String × Nat × Nat)
  mergeInvocations : List (List String)
  directInvocations : List (String × Nat)
deriving Repr, DecidableEq

/-- The LLM abstracted per call site: `chunkResp i a` is the outcome of
attempt `a` of the per-chunk call for chunk `i`; `mergeResp a` the outcome
of attempt `a` of the merge call; `directResp a` the outcome of the direct
single-call summarization. -/
structure LLMOracle where
  chunkResp : Nat → Nat → LLMResult
  mergeResp : Nat → LLMResult
  directResp : Nat → LLMResult

/-- The partial summaries accumulated by the chunk loop of
`ChunkedSummarizer.summarize_text`.  With `MAX_RETRIES = 3` the retry loop
always returns a string, so the `Option.get!` never hits `none`. -/
def chunkSummaries (o : LLMOracle) (chunks : List String) : List String :=
  chunks.enum.map (fun p =>
    (summarizeLoop (o.chunkResp p.1) p.1 (List.range MAX_RETRIES) [] 0).result.get!)

/-- `ChunkedSummarizer.summarize_text`: fail fast when the client is
absent; split into chunks with the default budget; route one chunk to
`_direct_summarize`, several chunks through per-chunk summarization and a
single merge.  The second component records the invocations performed. -/
def summarize_text (client : Bool) (ct : String → Nat) (o : LLMOracle)
    (text : String) (max_words : Nat) :
    Except String (Option String × SummarizeTrace) :=
  if client = false then
    Except.error "OpenAI client not initialized. Please set OPENAI_API_KEY."
  else if (split_into_chunks ct text MAX_CHUNK_TOKENS).length = 1 then
    Except.ok (some (direct_summarize ct o.directResp text max_words).1,
      ⟨[], [], [(text, max_words)]⟩)
  else
    Except.ok ((merge_summaries ct o.mergeResp
        (chunkSummaries o (split_into_chunks ct text MAX_CHUNK_TOKENS))).result,
      ⟨(split_into_chunks ct text MAX_CHUNK_TOKENS).enum.map
          (fun p => (p.2, p.1, (split_into_chunks ct text MAX_CHUNK_TOKENS).length)),
        [chunkSummaries o (split_into_chunks ct text MAX_CHUNK_TOKENS)], []⟩)

/-- Concrete token counter for witnesses: 4000 tokens per character. -/
def ct4000 : String → Nat := fun s => 4000 * s.data.length

/-- Concrete token counter for witnesses: 200 tokens per character. -/
def ct200 : String → Nat := fun s => 200 * s.data.length

/-- A whitespace-heavy document: one short sentence followed by 48 spaces.
Under `ct200` it fills the chunk budget exactly, while its doubling is
split along sentences, which discards the whitespace. -/
def spacesDoc : String := "a." ++ ⟨List.replicate 48 ' '⟩

/-- A concrete oracle whose calls all succeed, for witnesses. -/
def oracleOk : LLMOracle :=
  ⟨fun _ _ => LLMResult.success "chunk summary",
    fun _ => LLMResult.success "merged",
    fun _ => LLMResult.success "direct"⟩

/-- The record returned by `ChunkedSummarizer.estimate_cost`. -/
structure CostEstimate where
  total_tokens : Nat
  chunks : Nat
  estimated_input_tokens : Nat
  estimated_output_tokens : Nat
  total_cost : ℚ
  input_cost : ℚ
  output_cost : ℚ
deriving Repr, DecidableEq

/-- `ChunkedSummarizer.estimate_cost`.  The Python
`int(input_tokens * 0.2)` truncation is modelled as the exact rational
floor `input_tokens * 2 / 10` on naturals. -/
def estimate_cost (ct : String → Nat) (text : String) : CostEstimate :=
  let total_tokens := ct text
  let chunks := split_into_chunks ct text MAX_CHUNK_TOKENS
  let input_tokens := (chunks.map ct).sum
  let estimated_output_tokens := input_tokens * 2 / 10
  let merge_input_tokens := estimated_output_tokens
  let merge_output_tokens : Nat := 800
  let total_input_cost : ℚ :=
    ((input_tokens + merge_input_tokens : Nat) : ℚ) * GPT4O_MINI_INPUT_COST_PER_1K / 1000
  let total_output_cost : ℚ :=
    ((estimated_output_tokens + merge_output_tokens : Nat) : ℚ)
      * GPT4O_MINI_OUTPUT_COST_PER_1K / 1000
  { total_tokens := total_tokens
    chunks := chunks.length
    estimated_input_tokens := input_tokens + merge_input_tokens
    estimated_output_tokens := estimated_output_tokens + merge_output_tokens
    total_cost := total_input_cost + total_output_cost
    input_cost := total_input_cost
    output_cost := total_output_cost }

/-! ### Lemmas about `strip` -/

lemma stripList_sublist (l : List Char) : stripList l <+ l :=
  (List.dropWhile_sublist wsChar).trans ( List.rdropWhile_prefix wsChar l).sublist

lemma strip_length_le (s : String) : (strip s).data.length ≤ s.data.length :=
  (stripList_sublist s.data).length_le

lemma rdropWhile_append_ws {w : List Char} (hw : ∀ c ∈ w, wsChar c = true) (l : List Char) :
    (l ++ w).rdropWhile wsChar = l.rdropWhile wsChar := by
  induction w using List.reverseRecOn with
  | nil => simp
  | append_singleton w x ih =>
    rw [← List.append_assoc, List.rdropWhile_concat_pos]
    · exact ih (fun c hc => hw c (List.mem_append_left _ hc))
    · exact hw x (List.mem_append_right _ (List.mem_singleton_self x))

lemma stripList_append_ws {w : List Char} (hw : ∀ c ∈ w, wsChar c = true) (l : List Char) :
    stripList (l ++ w) = stripList l := by
  unfold stripList
  rw [rdropWhile_append_ws hw]

lemma dropWhile_eq_self_of_head? {l : List Char}
    (h : ∀ a, l.head? = some a → wsChar a = false) : l.dropWhile wsChar = l := by
  cases l with
  | nil => rfl
  | cons c t =>
    have hc : wsChar c = false := h c rfl
    simp [List.dropWhile_cons, hc]

lemma rdropWhile_eq_self_of_getLast? {l : List Char}
    (h : ∀ a, l.getLast? = some a → wsChar a = false) : l.rdropWhile wsChar = l := by
  rw [List.rdropWhile_eq_self_iff]
  intro hl hp
  have := h (l.getLast hl) (List.getLast?_eq_getLast l hl)
  rw [this] at hp
  exact Bool.false_ne_true hp

lemma stripList_eq_self {l : List Char}
    (hh : ∀ a, l.head? = some a → wsChar a = false)
    (hl : ∀ a, l.getLast? = some a → wsChar a = false) : stripList l = l := by
  unfold stripList
  rw [rdropWhile_eq_self_of_getLast? hl, dropWhile_eq_self_of_head? hh]

lemma dropWhile_eq_self_of_stripList {l : List Char} (h : stripList l = l) :
    l.dropWhile wsChar = l ∧ l.rdropWhile wsChar = l := by
  have hpre : l.rdropWhile wsChar <+: l := List.rdropWhile_prefix wsChar l
  have hsuf : stripList l <:+ l.rdropWhile wsChar := List.dropWhile_suffix wsChar
  have hlen : (l.rdropWhile wsChar).length = l.length := by
    have h1 : l.length ≤ (l.rdropWhile wsChar).length := by
      calc l.length = (stripList l).length := by rw [h]
        _ ≤ (l.rdropWhile wsChar).length := hsuf.sublist.length_le
    exact Nat.le_antisymm hpre.sublist.length_le h1
  have hr : l.rdropWhile wsChar = l := hpre.eq_of_length hlen
  refine ⟨?_, hr⟩
  have : stripList l = l.dropWhile wsChar := by
    unfold stripList; rw [hr]
  rw [← this, h]

lemma head_not_ws_of_stripList {l : List Char} (h : stripList l = l) :
    ∀ a, l.head? = some a → wsChar a = false := by
  intro a ha
  have hd := (dropWhile_eq_self_of_stripList h).1
  rw [List.dropWhile_eq_self_iff] at hd
  cases l with
  | nil => simp at ha
  | cons c t =>
    have hac : c = a := by simpa using ha
    subst hac
    have := hd (by simp)
    simpa using this

lemma getLast_not_ws_of_stripList {l : List Char} (h : stripList l = l) :
    ∀ a, l.getLast? = some a → wsChar a = false := by
  intro a ha
  have hr := (dropWhile_eq_self_of_stripList h).2
  rw [List.rdropWhile_eq_self_iff] at hr
  have hne : l ≠ [] := by
    intro hnil; rw [hnil] at ha; simp at ha
  have h2 := hr hne
  rw [List.getLast?_eq_getLast l hne] at ha
  have hac : l.getLast hne = a := by simpa using ha
  rw [← hac]
  simpa using h2

lemma stripList_idem (l : List Char) : stripList (stripList l) = stripList l := by
  apply stripList_eq_self
  · intro a ha
    have hthis : (stripList l).dropWhile wsChar = stripList l := by
      unfold stripList
      rw [List.dropWhile_idempotent]
    rw [List.dropWhile_eq_self_iff] at hthis
    cases hsl : stripList l with
    | nil => rw [hsl] at ha; simp at ha
    | cons c t =>
      rw [hsl] at ha hthis
      have hac : c = a := by simpa using ha
      subst hac
      have := hthis (by simp)
      simpa using this
  · intro a ha
    have hsuf : stripList l <:+ l.rdropWhile wsChar := List.dropWhile_suffix wsChar
    obtain ⟨t, ht⟩ := hsuf
    have hlast : (l.rdropWhile wsChar).getLast? = some a := by
      rw [← ht, List.getLast?_append, ha]; rfl
    have hrne : l.rdropWhile wsChar ≠ [] := by
      intro hnil; rw [hnil] at hlast; simp at hlast
    have hnot := List.rdropWhile_last_not wsChar l hrne
    rw [List.getLast?_eq_getLast _ hrne] at hlast
    have hac : (l.rdropWhile wsChar).getLast hrne = a := by simpa using hlast
    rw [← hac]
    simpa using hnot

lemma strip_idem (s : String) : strip (strip s) = strip s :=
  String.ext (stripList_idem s.data)

lemma nn_all_ws : ∀ c ∈ ("\n\n" : String).data, wsChar c = true := by decide

lemma strip_append_nn {s : String} (h : strip s = s) : strip (s ++ "\n\n") = s := by
  apply String.ext
  show stripList (s ++ "\n\n").data = s.data
  rw [String.data_append, stripList_append_ws nn_all_ws]
  exact congrArg String.data h

/-! ### Lemmas about sentences, `joinNN` and `withNN` -/

lemma data_ne_nil_of_ne_empty {s : String} (h : s ≠ "") : s.data ≠ [] :=
  fun hd => h (String.ext hd)

lemma strip_data {s : String} (h : strip s = s) : stripList s.data = s.data :=
  congrArg String.data h

lemma sentences_sentOk {text : String} : ∀ s ∈ split_into_sentences text, sentOk s := by
  intro s hs
  unfold split_into_sentences at hs
  have hmem := List.mem_of_mem_filter hs
  have hne : s ≠ "" := by
    have := List.of_mem_filter hs
    simpa using this
  refine ⟨hne, ?_⟩
  obtain ⟨l, _, hl⟩ := List.mem_map.mp hmem
  rw [← hl]
  exact strip_idem _

lemma joinNN_ne_nil : ∀ (g : List String), g ≠ [] → (∀ s ∈ g, s ≠ "") →
    (joinNN g).data ≠ []
  | [], hne, _ => absurd rfl hne
  | [s], _, hok => data_ne_nil_of_ne_empty (hok s (by simp))
  | s :: s2 :: rest, _, hok => by
    show ((s ++ "\n\n") ++ joinNN (s2 :: rest)).data ≠ []
    rw [String.data_append, String.data_append]
    apply List.append_ne_nil_of_left_ne_nil
    apply List.append_ne_nil_of_left_ne_nil
    exact data_ne_nil_of_ne_empty (hok s (by simp))

lemma joinNN_head?_not_ws : ∀ (g : List String), (∀ s ∈ g, sentOk s) →
    ∀ a, (joinNN g).data.head? = some a → wsChar a = false
  | [], _, a, ha => by simp [joinNN] at ha
  | [s], hg, a, ha =>
    head_not_ws_of_stripList (strip_data (hg s (by simp)).2) a ha
  | s :: s2 :: rest, hg, a, ha => by
    have hs := hg s (by simp)
    have hdata : s.data ≠ [] := data_ne_nil_of_ne_empty hs.1
    apply head_not_ws_of_stripList (strip_data hs.2) a
    revert ha
    show ((s ++ "\n\n") ++ joinNN (s2 :: rest)).data.head? = some a → s.data.head? = some a
    rw [String.data_append, String.data_append, List.append_assoc, List.head?_append]
    cases hd : s.data with
    | nil => exact absurd hd hdata
    | cons c t => simp

lemma joinNN_getLast?_not_ws : ∀ (g : List String), (∀ s ∈ g, sentOk s) →
    ∀ a, (joinNN g).data.getLast? = some a → wsChar a = false
  | [], _, a, ha => by simp [joinNN] at ha
  | [s], hg, a, ha =>
    getLast_not_ws_of_stripList (strip_data (hg s (by simp)).2) a ha
  | s :: s2 :: rest, hg, a, ha => by
    have hg2 : ∀ t ∈ s2 :: rest, sentOk t := fun t ht => hg t (List.mem_cons_of_mem s ht)
    apply joinNN_getLast?_not_ws (s2 :: rest) hg2 a
    have hjne : (joinNN (s2 :: rest)).data ≠ [] :=
      joinNN_ne_nil (s2 :: rest) (by simp) (fun t ht => (hg2 t ht).1)
    revert ha
    show ((s ++ "\n\n") ++ joinNN (s2 :: rest)).data.getLast? = some a →
      (joinNN (s2 :: rest)).data.getLast? = some a
    rw [String.data_append, List.getLast?_append]
    rw [List.getLast?_eq_getLast _ hjne]
    intro ha
    simpa using ha

lemma strip_joinNN {g : List String} (hg : ∀ s ∈ g, sentOk s) :
    strip (joinNN g) = joinNN g :=
  String.ext (stripList_eq_self (joinNN_head?_not_ws g hg) (joinNN_getLast?_not_ws g hg))

lemma withNN_eq_joinNN : ∀ (g : List String), g ≠ [] → withNN g = joinNN g ++ "\n\n"
  | [], hne => absurd rfl hne
  | [s], _ => by
    show (s ++ "\n\n") ++ "" = s ++ "\n\n"
    rw [String.append_empty]
  | s :: s2 :: rest, _ => by
    show (s ++ "\n\n") ++ withNN (s2 :: rest) = ((s ++ "\n\n") ++ joinNN (s2 :: rest)) ++ "\n\n"
    rw [withNN_eq_joinNN (s2 :: rest) (by simp)]
    simp [String.append_assoc]

lemma withNN_ne_empty {g : List String} (hne : g ≠ []) : withNN g ≠ "" := by
  cases g with
  | nil => exact absurd rfl hne
  | cons s rest =>
    show (s ++ "\n\n") ++ withNN rest ≠ ""
    intro h
    have hd := congrArg String.data h
    rw [String.data_append, String.data_append] at hd
    rw [List.append_assoc] at hd
    have := (List.append_eq_nil.mp hd).2
    exact absurd (List.append_eq_nil.mp this).1 (by decide)

lemma withNN_snoc (g : List String) (s : String) :
    withNN (g ++ [s]) = withNN g ++ (s ++ "\n\n") := by
  induction g with
  | nil =>
    show (s ++ "\n\n") ++ "" = "" ++ (s ++ "\n\n")
    rw [String.append_empty, String.empty_append]
  | cons t g ih =>
    show (t ++ "\n\n") ++ withNN (g ++ [s]) = ((t ++ "\n\n") ++ withNN g) ++ (s ++ "\n\n")
    rw [ih]
    simp [String.append_assoc]

lemma strip_withNN {g : List String} (hne : g ≠ []) (hg : ∀ s ∈ g, sentOk s) :
    strip (withNN g) = joinNN g := by
  rw [withNN_eq_joinNN g hne]
  apply String.ext
  show stripList ((joinNN g) ++ "\n\n").data = (joinNN g).data
  rw [String.data_append, stripList_append_ws nn_all_ws]
  exact strip_data (strip_joinNN hg)

lemma joinNN_ne_empty {g : List String} (hne : g ≠ []) (hg : ∀ s ∈ g, s ≠ "") :
    joinNN g ≠ "" :=
  fun h => joinNN_ne_nil g hne hg (congrArg String.data h)

/-! ### Core lemmas about `chunkLoop` -/

lemma withNN_eq_empty {g : List String} (h : withNN g = "") : g = [] := by
  by_contra hne
  exact withNN_ne_empty hne h

lemma sealed_chunk_ok (ct : String → Nat) (max_tokens : Nat)
    (hmono : ∀ t : String, ct (strip t) ≤ ct t)
    (SENT : List String) (hS : ∀ s ∈ SENT, sentOk s) (current : String)
    (hP : ct current ≤ max_tokens ∨ ∃ s, s ∈ SENT ∧ current = s ++ "\n\n") :
    ct (strip current) ≤ max_tokens ∨
      (strip current ∈ SENT ∧ max_tokens < ct (strip current)) := by
  rcases hP with hle | ⟨s, hsS, hseq⟩
  · exact Or.inl (le_trans (hmono current) hle)
  · have hstrip : strip current = s := by
      rw [hseq]
      exact strip_append_nn (hS s hsS).2
    rw [hstrip]
    by_cases hle : ct s ≤ max_tokens
    · exact Or.inl hle
    · exact Or.inr ⟨hsS, Nat.lt_of_not_le hle⟩

lemma chunkLoop_budget (ct : String → Nat) (max_tokens : Nat)
    (hmono : ∀ t : String, ct (strip t) ≤ ct t)
    (SENT : List String) (hS : ∀ s ∈ SENT, sentOk s) :
    ∀ (sents : List String), (∀ s ∈ sents, s ∈ SENT) →
    ∀ (current : String),
      (current = "" ∨ ct current ≤ max_tokens ∨ ∃ s, s ∈ SENT ∧ current = s ++ "\n\n") →
    ∀ c ∈ chunkLoop ct max_tokens sents current,
      ct c ≤ max_tokens ∨ (c ∈ SENT ∧ max_tokens < ct c) := by
  intro sents
  induction sents with
  | nil =>
    intro _ current hP c hc
    by_cases hcur : current = ""
    · rw [chunkLoop, if_pos hcur] at hc
      simp at hc
    · rw [chunkLoop, if_neg hcur] at hc
      have hceq : c = strip current := by simpa using hc
      rw [hceq]
      rcases hP with h | h
      · exact absurd h hcur
      · exact sealed_chunk_ok ct max_tokens hmono SENT hS current h
  | cons s rest ih =>
    intro hsents current hP c hc
    have hsS : s ∈ SENT := hsents s (List.mem_cons_self s rest)
    have hrest : ∀ t ∈ rest, t ∈ SENT := fun t ht => hsents t (List.mem_cons_of_mem s ht)
    rw [chunkLoop] at hc
    by_cases hacc : ct (current ++ s ++ "\n\n") ≤ max_tokens
    · rw [if_pos hacc] at hc
      exact ih hrest (current ++ s ++ "\n\n") (Or.inr (Or.inl hacc)) c hc
    · rw [if_neg hacc] at hc
      by_cases hcur : current = ""
      · rw [if_pos hcur] at hc
        exact ih hrest (s ++ "\n\n") (Or.inr (Or.inr ⟨s, hsS, rfl⟩)) c hc
      · rw [if_neg hcur] at hc
        rcases List.mem_cons.mp hc with hceq | hcrec
        · rw [hceq]
          rcases hP with h | h
          · exact absurd h hcur
          · exact sealed_chunk_ok ct max_tokens hmono SENT hS current h
        · exact ih hrest (s ++ "\n\n") (Or.inr (Or.inr ⟨s, hsS, rfl⟩)) c hcrec

lemma chunkLoop_groups (ct : String → Nat) (max_tokens : Nat) :
    ∀ (sents : List String), (∀ s ∈ sents, sentOk s) →
    ∀ (curGroup : List String), (∀ s ∈ curGroup, sentOk s) →
    ∃ groups : List (List String),
      groups.flatten = curGroup ++ sents ∧ (∀ g ∈ groups, g ≠ []) ∧
      chunkLoop ct max_tokens sents (withNN curGroup) = groups.map joinNN := by
  intro sents
  induction sents with
  | nil =>
    intro _ curGroup hcg
    by_cases hne : curGroup = []
    · subst hne
      exact ⟨[], by simp, by simp, by rw [chunkLoop]; simp [withNN]⟩
    · refine ⟨[curGroup], by simp, by simpa using hne, ?_⟩
      rw [chunkLoop, if_neg (withNN_ne_empty hne)]
      rw [strip_withNN hne hcg]
      simp
  | cons s rest ih =>
    intro hsents curGroup hcg
    have hsOk : sentOk s := hsents s (List.mem_cons_self s rest)
    have hrest : ∀ t ∈ rest, sentOk t := fun t ht => hsents t (List.mem_cons_of_mem s ht)
    have htest : withNN curGroup ++ s ++ "\n\n" = withNN (curGroup ++ [s]) := by
      rw [withNN_snoc, String.append_assoc]
    rw [chunkLoop]
    by_cases hacc : ct (withNN curGroup ++ s ++ "\n\n") ≤ max_tokens
    · rw [if_pos hacc, htest]
      have hok : ∀ t ∈ curGroup ++ [s], sentOk t := by
        intro t ht
        rcases List.mem_append.mp ht with h | h
        · exact hcg t h
        · rw [List.mem_singleton.mp h]; exact hsOk
      obtain ⟨groups, hjoin, hne, heq⟩ := ih hrest (curGroup ++ [s]) hok
      refine ⟨groups, ?_, hne, heq⟩
      rw [hjoin, List.append_assoc]
      simp
    · rw [if_neg hacc]
      have hsOnly : ∀ t ∈ [s], sentOk t := by
        intro t ht
        rw [List.mem_singleton.mp ht]; exact hsOk
      have hsingle : s ++ "\n\n" = withNN [s] := by
        show s ++ "\n\n" = (s ++ "\n\n") ++ ""
        rw [String.append_empty]
      by_cases hcur : withNN curGroup = ""
      · rw [if_pos hcur]
        have hcge : curGroup = [] := withNN_eq_empty hcur
        subst hcge
        rw [hsingle]
        obtain ⟨groups, hjoin, hne, heq⟩ := ih hrest [s] hsOnly
        exact ⟨groups, by simpa using hjoin, hne, heq⟩
      · rw [if_neg hcur]
        have hcgne : curGroup ≠ [] := fun h => hcur (by rw [h]; rfl)
        rw [hsingle]
        obtain ⟨groups, hjoin, hne, heq⟩ := ih hrest [s] hsOnly
        refine ⟨curGroup :: groups, ?_, ?_, ?_⟩
        · rw [List.flatten_cons, hjoin]
          simp
        · intro g hg
          rcases List.mem_cons.mp hg with h | h
          · rw [h]; exact hcgne
          · exact hne g h
        · rw [List.map, heq, strip_withNN hcgne hcg]

/-! ### Claim theorems for the chunker -/

lemma ctLen_strip_le : ∀ t : String, ctLen (strip t) ≤ ctLen t := fun t => strip_length_le t

/-- **C1.** For every text and every token budget, every chunk returned by
`Tokenizer.split_into_chunks` has token count at most `max_tokens`, except
that a chunk may exceed the budget only when it is a single sentence (an
element of the `Tokenizer._split_into_sentences` output) whose own token
count exceeds `max_tokens`; such an oversized sentence is then itself the
whole chunk, so it is neither dropped nor further split.  The hypothesis
is the only property needed of the tiktoken counter: stripping surrounding
whitespace cannot increase the token count.  Termination of the split is
witnessed by `split_into_chunks` being a total function. -/
theorem C1_chunk_budget (ct : String → Nat) (text : String) (max_tokens : Nat)
    (hmono : ∀ t : String, ct (strip t) ≤ ct t) :
    ∀ c ∈ split_into_chunks ct text max_tokens,
      ct c ≤ max_tokens ∨ (c ∈ split_into_sentences text ∧ max_tokens < ct c) := by
  intro c hc
  unfold split_into_chunks at hc
  by_cases hfast : ct text ≤ max_tokens
  · rw [if_pos hfast] at hc
    have hceq : c = text := by simpa using hc
    rw [hceq]
    exact Or.inl hfast
  · rw [if_neg hfast] at hc
    exact chunkLoop_budget ct max_tokens hmono (split_into_sentences text)
      sentences_sentOk (split_into_sentences text) (fun s hs => hs) "" (Or.inl rfl) c hc

/-- Witness for **C1** at a concrete input: with a one-token-per-character
counter and budget 3, the text `"a. b."` (5 tokens) splits into chunks
`["a.", "b."]`, and the first chunk satisfies the budget disjunction. -/
theorem C1_witness :
    (∀ t : String, ctLen (strip t) ≤ ctLen t) ∧
    "a." ∈ split_into_chunks ctLen "a. b." 3 ∧
    (ctLen "a." ≤ 3 ∨ ("a." ∈ split_into_sentences "a. b." ∧ 3 < ctLen "a.")) :=
  ⟨ctLen_strip_le, by decide,
    C1_chunk_budget ctLen "a. b." 3 ctLen_strip_le "a." (by decide)⟩

/-- **C2** (amended).  Whenever `Tokenizer.split_into_chunks` returns more
than one chunk, the chunks partition the sentence list: there are
non-empty consecutive groups of sentences whose `"\n\n"`-joins are exactly
the chunks in order, so every sentence appears exactly once and in the
original order.  The no-empty-chunk guarantee holds for every *non-empty*
input text — the claim's unrestricted version fails on the empty text,
which is returned unchanged as the single chunk `""`
(see the counterexample). -/
theorem C2_reconstruction (ct : String → Nat) (text : String) (max_tokens : Nat) :
    (1 < (split_into_chunks ct text max_tokens).length →
      ∃ groups : List (List String),
        groups.flatten = split_into_sentences text ∧
        (∀ g ∈ groups, g ≠ []) ∧
        split_into_chunks ct text max_tokens = groups.map joinNN) ∧
    (text ≠ "" → ∀ c ∈ split_into_chunks ct text max_tokens, c ≠ "") := by
  constructor
  · intro hlen
    have hslow : ¬ ct text ≤ max_tokens := by
      intro hfast
      unfold split_into_chunks at hlen
      rw [if_pos hfast] at hlen
      simp at hlen
    unfold split_into_chunks
    rw [if_neg hslow]
    obtain ⟨groups, hjoin, hne, heq⟩ := chunkLoop_groups ct max_tokens
      (split_into_sentences text) sentences_sentOk [] (by simp)
    exact ⟨groups, by simpa using hjoin, hne, heq⟩
  · intro htext c hc
    unfold split_into_chunks at hc
    by_cases hfast : ct text ≤ max_tokens
    · rw [if_pos hfast] at hc
      have hceq : c = text := by simpa using hc
      rw [hceq]
      exact htext
    · rw [if_neg hfast] at hc
      obtain ⟨groups, hjoin, hne, heq⟩ := chunkLoop_groups ct max_tokens
        (split_into_sentences text) sentences_sentOk [] (by simp)
      have heq' : chunkLoop ct max_tokens (split_into_sentences text) "" =
          groups.map joinNN := heq
      rw [heq'] at hc
      obtain ⟨g, hg, hcg⟩ := List.mem_map.mp hc
      rw [← hcg]
      apply joinNN_ne_empty (hne g hg)
      intro s hs
      have hfl : s ∈ groups.flatten := List.mem_flatten.mpr ⟨g, hg, hs⟩
      rw [hjoin] at hfl
      exact (sentences_sentOk s (by simpa using hfl)).1

/-- Counterexample to the unrestricted no-empty-chunk clause of **C2**:
on the empty input text the fast path returns the empty string as a
(single, empty) chunk. -/
theorem C2_counterexample :
    split_into_chunks ctLen "" 5 = [""] ∧ "" ∈ split_into_chunks ctLen "" 5 := by
  constructor
  · decide
  · decide

/-- Witness for **C2** at a concrete input: `"a. b."` with budget 3 splits
into the two chunks `["a.", "b."]`, which are the two sentence groups, and
none of them is empty. -/
theorem C2_witness :
    (1 < (split_into_chunks ctLen "a. b." 3).length ∧
      ∃ groups : List (List String),
        groups.flatten = split_into_sentences "a. b." ∧
        (∀ g ∈ groups, g ≠ []) ∧
        split_into_chunks ctLen "a. b." 3 = groups.map joinNN) ∧
    ("a. b." ≠ "" ∧ ∀ c ∈ split_into_chunks ctLen "a. b." 3, c ≠ "") :=
  ⟨⟨by decide, (C2_reconstruction ctLen "a. b." 3).1 (by decide)⟩,
   ⟨by decide, (C2_reconstruction ctLen "a. b." 3).2 (by decide)⟩⟩

/-- **C7.**  A text whose token count fits the budget is returned whole as
the single chunk, completely unmodified. -/
theorem C7_small_input (ct : String → Nat) (text : String) (max_tokens : Nat)
    (h : ct text ≤ max_tokens) : split_into_chunks ct text max_tokens = [text] := by
  unfold split_into_chunks
  rw [if_pos h]

/-- Witness for **C7** at a concrete input. -/
theorem C7_witness : ctLen "hi" ≤ 5 ∧ split_into_chunks ctLen "hi" 5 = ["hi"] :=
  ⟨by decide, C7_small_input ctLen "hi" 5 (by decide)⟩

/-! ### Claim theorems for retries, merge and formatting -/

lemma substring_mid (a b c : String) : b.data <:+: (a ++ b ++ c).data := by
  rw [String.data_append, String.data_append]
  exact List.infix_append _ _ _

lemma format_getLast (ct : String → Nat) (b : String) :
    (format_final_summary ct b).data.getLast? = some '*' := by
  unfold format_final_summary
  simp only [String.data_append, List.getLast?_append]
  rfl

lemma format_third_char (ct : String → Nat) (b : String) :
    (format_final_summary ct b).data[2]? = some '📊' := by
  unfold format_final_summary
  simp only [String.data_append]
  rw [List.append_assoc, List.getElem?_append_left (by decide)]
  rfl

/-- **C3.**  With the client present, a chunk summarization whose LLM call
fails with a transient error on all `MAX_RETRIES = 3` attempts returns
(never raises) the placeholder embedding the 1-based chunk index and the
last error message, after sleeping `2` and then `4` seconds — exponential
backoff with base delay `RETRY_DELAY = 2`, doubling each retry. -/
theorem C3_retry_exhaustion (call : Nat → LLMResult) (chunk_index : Nat) (m : Nat → String)
    (hfail : ∀ a, a < MAX_RETRIES → call a = LLMResult.transient (m a)) :
    summarize_chunk true call chunk_index =
      Except.ok ⟨some (chunkFailurePlaceholder chunk_index (m 2)),
        [RETRY_DELAY * 2 ^ 0, RETRY_DELAY * 2 ^ 1], 3⟩ ∧
    (toString (chunk_index + 1)).data <:+: (chunkFailurePlaceholder chunk_index (m 2)).data ∧
    (m 2).data <:+: (chunkFailurePlaceholder chunk_index (m 2)).data := by
  have h0 := hfail 0 (by decide)
  have h1 := hfail 1 (by decide)
  have h2 := hfail 2 (by decide)
  refine ⟨?_, ?_, ?_⟩
  · unfold summarize_chunk
    rw [if_neg (by decide : ¬ (true = false))]
    have hr : List.range MAX_RETRIES = [0, 1, 2] := by decide
    rw [hr]
    simp only [summarizeLoop, h0, h1, h2]
    rw [if_pos (by decide : (0 : Nat) < MAX_RETRIES - 1),
      if_pos (by decide : (1 : Nat) < MAX_RETRIES - 1),
      if_neg (by decide : ¬ ((2 : Nat) < MAX_RETRIES - 1))]
    simp
  · have hassoc : chunkFailurePlaceholder chunk_index (m 2) =
        "## Chunk " ++ toString (chunk_index + 1) ++
          (" Summary\n\n*Summary generation failed: " ++ m 2 ++ "*") := by
      unfold chunkFailurePlaceholder
      simp [String.append_assoc]
    rw [hassoc]
    exact substring_mid _ _ _
  · have hassoc : chunkFailurePlaceholder chunk_index (m 2) =
        ("## Chunk " ++ toString (chunk_index + 1) ++
          " Summary\n\n*Summary generation failed: ") ++ m 2 ++ "*" := by
      unfold chunkFailurePlaceholder
      simp [String.append_assoc]
    rw [hassoc]
    exact substring_mid _ _ _

/-- Witness for **C3** at a concrete input: chunk index 0 and an LLM that
answers every attempt with the transient message `"boom"`. -/
theorem C3_witness :
    (∀ a, a < MAX_RETRIES →
      (fun _ => LLMResult.transient "boom") a = LLMResult.transient ((fun _ => "boom") a)) ∧
    (summarize_chunk true (fun _ => LLMResult.transient "boom") 0 =
      Except.ok ⟨some (chunkFailurePlaceholder 0 "boom"),
        [RETRY_DELAY * 2 ^ 0, RETRY_DELAY * 2 ^ 1], 3⟩ ∧
    (toString (0 + 1)).data <:+: (chunkFailurePlaceholder 0 "boom").data ∧
    ("boom" : String).data <:+: (chunkFailurePlaceholder 0 "boom").data) :=
  ⟨fun _ _ => rfl,
    C3_retry_exhaustion (fun _ => LLMResult.transient "boom") 0 (fun _ => "boom")
      (fun _ _ => rfl)⟩

/-- **C4** (amended/corrected).  `ChunkedSummarizer.merge_summaries` on the
empty list returns the fixed no-content summary: it carries the standard
header and no body content from any chunk, but — contrary to the claim as
stated — it does not pass through `_format_final_summary`, so the result
carries no standard metadata trailer. -/
theorem C4_empty_merge (ct : String → Nat) (call : Nat → LLMResult) :
    merge_summaries ct call [] = ⟨some noContentSummary, [], 0⟩ ∧
    ("# 📊 Executive Summary\n\n".data <+: noContentSummary.data) ∧
    (∀ b : String, noContentSummary ≠ format_final_summary ct b) := by
  refine ⟨rfl, by decide, ?_⟩
  intro b hb
  have h := congrArg (fun s => s.data.getLast?) hb
  simp only at h
  rw [format_getLast] at h
  exact absurd h (by decide)

/-- Counterexample for **C4** as stated: the empty-merge result does not
contain the metadata trailer marker `*Generated from `, so it cannot have
been produced by the standard formatting step. -/
theorem C4_counterexample :
    merge_summaries ctLen (fun _ => LLMResult.success "body") [] =
      ⟨some noContentSummary, [], 0⟩ ∧
    ¬ ("*Generated from ".data <:+: noContentSummary.data) := by
  refine ⟨rfl, ?_⟩
  decide

/-- **C5.**  Merging a single partial summary forwards it unchanged to the
formatting step: the result is exactly the standard header, then the
summary text verbatim, then the standard metadata trailer, with no LLM
call and no sleep on this path. -/
theorem C5_single_merge (ct : String → Nat) (call : Nat → LLMResult) (s : String) :
    merge_summaries ct call [s] =
      ⟨some ("# 📊 Executive Summary\n\n" ++ s ++
        ("\n\n---\n*Generated from " ++ toString (splitWords s).length ++ " words ("
          ++ commaGroup (ct s) ++ " tokens)*")), [], 0⟩ := rfl

/-- **C10.**  On the direct single-chunk path, `_direct_summarize` makes
exactly one LLM attempt with no retry and no backoff sleep: any failure,
transient or fatal, becomes the fixed failure text embedding the error
message, returned (not raised), and that text is never of the standard
header/trailer shape produced by `_format_final_summary`. -/
theorem C10_direct_failure (ct : String → Nat) (call : Nat → LLMResult)
    (text : String) (max_words : Nat) (msg : String)
    (hfail : call 0 = LLMResult.transient msg ∨ call 0 = LLMResult.fatal msg) :
    direct_summarize ct call text max_words =
      ("# ❌ Summary Generation Failed\n\nError: " ++ msg, [], 1) ∧
    (∀ b : String, ("# ❌ Summary Generation Failed\n\nError: " ++ msg) ≠
      format_final_summary ct b) := by
  constructor
  · rcases hfail with h | h <;> simp [direct_summarize, h]
  · intro b hb
    have h3 := congrArg (fun s => s.data[2]?) hb
    simp only at h3
    rw [format_third_char] at h3
    rw [String.data_append, List.getElem?_append_left (by decide)] at h3
    exact absurd h3 (by decide)

/-- Witness for **C10** at a concrete input: an LLM whose single direct
call raises a connection error. -/
theorem C10_witness :
    ((fun _ => LLMResult.transient "down") 0 = LLMResult.transient "down" ∨
      (fun _ => LLMResult.transient "down") 0 = LLMResult.fatal "down") ∧
    (direct_summarize ctLen (fun _ => LLMResult.transient "down") "text" 300 =
      ("# ❌ Summary Generation Failed\n\nError: " ++ "down", [], 1) ∧
    (∀ b : String, ("# ❌ Summary Generation Failed\n\nError: " ++ "down") ≠
      format_final_summary ctLen b)) :=
  ⟨Or.inl rfl,
    C10_direct_failure ctLen (fun _ => LLMResult.transient "down") "text" 300 "down"
      (Or.inl rfl)⟩

/-! ### Claim theorems for routing and cost estimation -/

/-- **C6.**  `ChunkedSummarizer.summarize_text` routing: with exactly one
chunk, the whole text goes through the direct single-call path with the
final word budget, and neither `summarize_chunk` nor `merge_summaries` is
invoked; with `n > 1` chunks, `summarize_chunk` is invoked exactly `n`
times, sequentially in chunk order with the matching index and total, and
`merge_summaries` exactly once, with the `n` partial summaries in chunk
order. -/
theorem C6_routing (ct : String → Nat) (o : LLMOracle) (text : String) (max_words : Nat) :
    ((split_into_chunks ct text MAX_CHUNK_TOKENS).length = 1 →
      summarize_text true ct o text max_words =
        Except.ok (some (direct_summarize ct o.directResp text max_words).1,
          ⟨[], [], [(text, max_words)]⟩)) ∧
    (1 < (split_into_chunks ct text MAX_CHUNK_TOKENS).length →
      ∃ trace : SummarizeTrace,
        summarize_text true ct o text max_words =
          Except.ok ((merge_summaries ct o.mergeResp
            (chunkSummaries o (split_into_chunks ct text MAX_CHUNK_TOKENS))).result, trace) ∧
        trace.directInvocations = [] ∧
        trace.mergeInvocations =
          [chunkSummaries o (split_into_chunks ct text MAX_CHUNK_TOKENS)] ∧
        trace.chunkInvocations.length =
          (split_into_chunks ct text MAX_CHUNK_TOKENS).length ∧
        (∀ i : Nat, trace.chunkInvocations[i]? =
          ((split_into_chunks ct text MAX_CHUNK_TOKENS)[i]?).map
            (fun c => (c, i, (split_into_chunks ct text MAX_CHUNK_TOKENS).length))) ∧
        (chunkSummaries o (split_into_chunks ct text MAX_CHUNK_TOKENS)).length =
          (split_into_chunks ct text MAX_CHUNK_TOKENS).length) := by
  constructor
  · intro h1
    unfold summarize_text
    rw [if_neg (by decide : ¬ (true = false)), if_pos h1]
  · intro hn
    have hne : ¬ (split_into_chunks ct text MAX_CHUNK_TOKENS).length = 1 := by omega
    refine ⟨⟨(split_into_chunks ct text MAX_CHUNK_TOKENS).enum.map
        (fun p => (p.2, p.1, (split_into_chunks ct text MAX_CHUNK_TOKENS).length)),
      [chunkSummaries o (split_into_chunks ct text MAX_CHUNK_TOKENS)], []⟩,
      ?_, rfl, rfl, ?_, ?_, ?_⟩
    · unfold summarize_text
      rw [if_neg (by decide : ¬ (true = false)), if_neg hne]
    · simp [List.enum_eq_enumFrom]
    · intro i
      cases h : (split_into_chunks ct text MAX_CHUNK_TOKENS)[i]? with
      | none =>
        simp only [List.getElem?_map, List.enum_eq_enumFrom, List.getElem?_enumFrom, h]
        rfl
      | some c =>
        simp only [List.getElem?_map, List.enum_eq_enumFrom, List.getElem?_enumFrom, h]
        simp
    · unfold chunkSummaries
      simp [List.enum_eq_enumFrom]

/-- Witness for **C6** at concrete inputs, covering both routes: `"hi"`
is one chunk under `ctLen`, so the direct path is taken with an empty
invocation trace for `summarize_chunk`/`merge_summaries`; under `ct4000`
the text `"a. b."` splits into two chunks, so the per-chunk/merge path is
taken. -/
theorem C6_witness :
    ((split_into_chunks ctLen "hi" MAX_CHUNK_TOKENS).length = 1 ∧
    summarize_text true ctLen oracleOk "hi" 300 =
      Except.ok (some (direct_summarize ctLen oracleOk.directResp "hi" 300).1,
        ⟨[], [], [("hi", 300)]⟩)) ∧
    1 < (split_into_chunks ct4000 "a. b." MAX_CHUNK_TOKENS).length ∧
    (∃ trace : SummarizeTrace,
      summarize_text true ct4000 oracleOk "a. b." 300 =
        Except.ok ((merge_summaries ct4000 oracleOk.mergeResp
          (chunkSummaries oracleOk
            (split_into_chunks ct4000 "a. b." MAX_CHUNK_TOKENS))).result, trace) ∧
      trace.directInvocations = [] ∧
      trace.mergeInvocations =
        [chunkSummaries oracleOk (split_into_chunks ct4000 "a. b." MAX_CHUNK_TOKENS)] ∧
      trace.chunkInvocations.length =
        (split_into_chunks ct4000 "a. b." MAX_CHUNK_TOKENS).length ∧
      (∀ i : Nat, trace.chunkInvocations[i]? =
        ((split_into_chunks ct4000 "a. b." MAX_CHUNK_TOKENS)[i]?).map
          (fun c => (c, i, (split_into_chunks ct4000 "a. b." MAX_CHUNK_TOKENS).length))) ∧
      (chunkSummaries oracleOk (split_into_chunks ct4000 "a. b." MAX_CHUNK_TOKENS)).length =
        (split_into_chunks ct4000 "a. b." MAX_CHUNK_TOKENS).length) :=
  ⟨⟨by decide, (C6_routing ctLen oracleOk "hi" 300).1 (by decide)⟩,
    by decide, (C6_routing ct4000 oracleOk "a. b." 300).2 (by decide)⟩

/-- **C8.**  `ChunkedSummarizer.estimate_cost` is a pure function of the
document text and the chunking configuration — its embedding takes no LLM
oracle at all — and the seven fields of the returned record are computed
exactly as specified: input tokens are the sum of token counts over the
chunks, estimated output tokens are 20% of the input (with the merge
output a fixed 800-token budget added), the merge input equals the
estimated chunk output, and the monetary costs come from the per-1000
price constants. -/
theorem C8_estimate_cost (ct : String → Nat) (text : String) :
    (estimate_cost ct text).total_tokens = ct text ∧
    (estimate_cost ct text).chunks = (split_into_chunks ct text MAX_CHUNK_TOKENS).length ∧
    (estimate_cost ct text).estimated_input_tokens =
      ((split_into_chunks ct text MAX_CHUNK_TOKENS).map ct).sum +
        ((split_into_chunks ct text MAX_CHUNK_TOKENS).map ct).sum * 2 / 10 ∧
    (estimate_cost ct text).estimated_output_tokens =
      ((split_into_chunks ct text MAX_CHUNK_TOKENS).map ct).sum * 2 / 10 + 800 ∧
    (estimate_cost ct text).input_cost =
      ((estimate_cost ct text).estimated_input_tokens : ℚ) *
        GPT4O_MINI_INPUT_COST_PER_1K / 1000 ∧
    (estimate_cost ct text).output_cost =
      ((estimate_cost ct text).estimated_output_tokens : ℚ) *
        GPT4O_MINI_OUTPUT_COST_PER_1K / 1000 ∧
    (estimate_cost ct text).total_cost =
      (estimate_cost ct text).input_cost + (estimate_cost ct text).output_cost :=
  ⟨rfl, rfl, rfl, rfl, rfl, rfl, rfl⟩

/-- **C9** (amended/corrected).  The estimated total cost is monotone in
the chunked input-token sum: doubling the document cannot decrease the
estimated total cost **provided** it does not decrease the sum of token
counts over the resulting chunks.  The unrestricted claim is false because
sentence splitting discards inter-sentence whitespace, which can shrink
that sum below the single-chunk total of the original document (see the
counterexample). -/
theorem C9_cost_monotone (ct : String → Nat) (d : String)
    (hsum : ((split_into_chunks ct d MAX_CHUNK_TOKENS).map ct).sum ≤
      ((split_into_chunks ct (d ++ d) MAX_CHUNK_TOKENS).map ct).sum) :
    (estimate_cost ct d).total_cost ≤ (estimate_cost ct (d ++ d)).total_cost := by
  have hdiv : ((split_into_chunks ct d MAX_CHUNK_TOKENS).map ct).sum * 2 / 10 ≤
      ((split_into_chunks ct (d ++ d) MAX_CHUNK_TOKENS).map ct).sum * 2 / 10 :=
    Nat.div_le_div_right (Nat.mul_le_mul_right 2 hsum)
  simp only [estimate_cost, GPT4O_MINI_INPUT_COST_PER_1K, GPT4O_MINI_OUTPUT_COST_PER_1K]
  gcongr

/-- Witness for **C9** at a concrete input: doubling `"ab"` keeps it on
the single-chunk fast path, so the chunked token sum grows and the cost
estimate does not decrease. -/
theorem C9_witness :
    ((split_into_chunks ctLen "ab" MAX_CHUNK_TOKENS).map ctLen).sum ≤
      ((split_into_chunks ctLen ("ab" ++ "ab") MAX_CHUNK_TOKENS).map ctLen).sum ∧
    (estimate_cost ctLen "ab").total_cost ≤
      (estimate_cost ctLen ("ab" ++ "ab")).total_cost :=
  ⟨by decide, C9_cost_monotone ctLen "ab" (by decide)⟩

/-- Counterexample for **C9** as stated: under a 200-token-per-character
counter, `spacesDoc` (a 50-character whitespace-padded document) exactly
fills the 10000-token chunk budget, but its doubling gets sentence-split
into a single short chunk whose whitespace is gone — the chunked token sum
collapses from 10000 to 1200, and the estimated total cost strictly
decreases although the document length doubled. -/
theorem C9_counterexample :
    (estimate_cost ct200 (spacesDoc ++ spacesDoc)).total_cost <
      (estimate_cost ct200 spacesDoc).total_cost := by
  have h1 : ((split_into_chunks ct200 spacesDoc MAX_CHUNK_TOKENS).map ct200).sum = 10000 := by
    decide
  have h2 : ((split_into_chunks ct200 (spacesDoc ++ spacesDoc)
      MAX_CHUNK_TOKENS).map ct200).sum = 1200 := by
    decide
  simp only [estimate_cost, GPT4O_MINI_INPUT_COST_PER_1K, GPT4O_MINI_OUTPUT_COST_PER_1K,
    h1, h2]
  norm_num

end WeeklyDigest
